import Mathlib

/-!
Verification of the graph hydration and transitive-closure engine of the
`graphite-transitive-dependencies` repository.

The TypeScript sources are shallowly embedded: JavaScript `Map`s are modelled
as insertion-ordered association lists (`Map.set` overwrites in place or
appends), JavaScript `Set`s as insertion-ordered duplicate-free lists, and the
mutating loops of `buildHydratedDag` and `computeTransitiveTargets` as folds
and a worklist recursion.  Fallible code returns `Except`.
-/

namespace GraphiteTD

/-- Lookup in a JavaScript `Map` modelled as an insertion-ordered association
list: the first entry with the given key wins (keys are unique by
construction of `mapSet`). -/
def mapGet? {α : Type} : List (String × α) → String → Option α
  | [], _ => none
  | (k₀, v₀) :: rest, k => if k₀ = k then some v₀ else mapGet? rest k

/-- `Map.set`: overwrite the value at an existing key keeping its position,
otherwise append a fresh entry at the end. -/
def mapSet {α : Type} : List (String × α) → String → α → List (String × α)
  | [], k, v => [(k, v)]
  | (k₀, v₀) :: rest, k, v =>
    if k₀ = k then (k₀, v) :: rest else (k₀, v₀) :: mapSet rest k v

/-- `Map.has`. -/
def mapHas {α : Type} (m : List (String × α)) (k : String) : Bool :=
  (mapGet? m k).isSome

/-- The set stored under a key of a set-valued map, defaulting to empty. -/
def getD (m : List (String × List String)) (k : String) : List String :=
  (mapGet? m k).getD []

/-- `Set.add` on a JavaScript `Set` modelled as an insertion-ordered
duplicate-free list. -/
def setAdd (s : List String) (x : String) : List String :=
  if x ∈ s then s else s ++ [x]

/-- The `if (!m.has(k)) m.set(k, new Set()); m.get(k)!.add(v)` idiom used
throughout `buildHydratedDag`: missing entries are initialized to the empty
set before insertion. -/
def setMapAdd (m : List (String × List String)) (k v : String) : List (String × List String) :=
  mapSet m k (setAdd (getD m k) v)

/-- The `mode` discriminant of `CachedBuildTargetsSchema`. -/
inductive Mode : Type
  | fullDag : Mode
  | filtered : Mode
deriving DecidableEq

/-- String rendering of a mode, as it appears in error messages. -/
def modeString : Mode → String
  | Mode.fullDag => "full-dag"
  | Mode.filtered => "filtered"

/-- `TargetInfoSchema`: stable id plus optional human-readable name. -/
structure TargetInfo : Type where
  targetId : String
  targetName : Option String
deriving DecidableEq

/-- `TargetSchema`: a graph node with its declared forward and reverse edges. -/
structure TargetNode : Type where
  target : TargetInfo
  dependencies : List String
  dependents : List String
deriving DecidableEq

/-- `CachedBuildTargets` (version 2 wire shape): a per-commit snapshot.
`baseSha` is populated only for `filtered` snapshots. -/
structure CachedBuildTargets : Type where
  mode : Mode
  headSha : String
  baseSha : Option String
  targetIds : List String
  graph : List TargetNode
deriving DecidableEq

/-- The hydrator output: merged reverse-edge adjacency plus the two name
lookup tables. -/
structure HydratedDag : Type where
  targetIdToDependentIds : List (String × List String)
  targetIdToName : List (String × String)
  nameToTargetIds : List (String × List String)
deriving DecidableEq

/-- The current fallback label: `targetName` when present (nullish
coalescing keeps an empty-string name), else the visible placeholder
`ID:` followed by the target id. -/
def fallbackName (t : TargetInfo) : String :=
  t.targetName.getD ("ID:" ++ t.targetId)

/-- One node of the name-table loop of `buildHydratedDag`: overwrite
`targetIdToName[targetId]` and union `targetId` into
`nameToTargetIds[targetName]`. -/
def stepName (acc : List (String × String) × List (String × List String))
    (node : TargetNode) : List (String × String) × List (String × List String) :=
  let targetName := fallbackName node.target
  (mapSet acc.1 node.target.targetId targetName,
    setMapAdd acc.2 targetName node.target.targetId)

/-- One node of the baseline edge loop of `buildHydratedDag`: ensure an entry
for the node's id and union its declared `dependents` into it.  Baseline
nodes' `dependencies` are not consulted. -/
def stepEdgeBaseline (m : List (String × List String)) (node : TargetNode) :
    List (String × List String) :=
  mapSet m node.target.targetId
    (node.dependents.foldl setAdd (getD m node.target.targetId))

/-- One node of the additional-snapshot edge loop of `buildHydratedDag`:
union the declared `dependents`, then for every declared dependency add this
node's id as a dependent of it (initializing missing entries). -/
def stepEdgeAdditional (m : List (String × List String)) (node : TargetNode) :
    List (String × List String) :=
  let m₁ := mapSet m node.target.targetId
    (node.dependents.foldl setAdd (getD m node.target.targetId))
  node.dependencies.foldl
    (fun acc depId => setMapAdd acc depId node.target.targetId) m₁

/-- `buildHydratedDag` from `src/build_hydrated_dag.ts`: checks the baseline
mode, folds the name tables over baseline then additional snapshots, then
folds the reverse-edge adjacency. -/
def buildHydratedDag (baselineTargets : CachedBuildTargets)
    (additionalTargets : List CachedBuildTargets) : Except String HydratedDag :=
  if baselineTargets.mode ≠ Mode.fullDag then
    Except.error ("Baseline commit " ++ baselineTargets.headSha ++
      " must have full-dag mode, got " ++ modeString baselineTargets.mode)
  else
    let nm₀ := baselineTargets.graph.foldl stepName ([], [])
    let nm₁ := additionalTargets.foldl (fun acc ts => ts.graph.foldl stepName acc) nm₀
    let e₀ := baselineTargets.graph.foldl stepEdgeBaseline []
    let e₁ := additionalTargets.foldl (fun acc ts => ts.graph.foldl stepEdgeAdditional acc) e₀
    Except.ok ⟨e₁, nm₁.1, nm₁.2⟩

/-- Graph element of the historical copy of `buildHydratedDag`, which reads
`targetId`, `targetName`, `dependencies` and `dependents` directly off each
graph element. -/
structure OldTarget : Type where
  targetId : String
  targetName : Option String
  dependencies : List String
  dependents : List String
deriving DecidableEq

/-- Snapshot shape consumed by the historical copy of `buildHydratedDag`. -/
structure OldCachedBuildTargets : Type where
  mode : Mode
  headSha : String
  targetIds : List String
  graph : List OldTarget
deriving DecidableEq

/-- `target.targetName || target.targetId`: the historical fallback; the
JavaScript `||` also replaces an empty-string name by the id. -/
def nameOrId (t : OldTarget) : String :=
  match t.targetName with
  | some s => if s = "" then t.targetId else s
  | none => t.targetId

/-- Name-table step of the historical copy. -/
def stepNameOld (acc : List (String × String) × List (String × List String))
    (target : OldTarget) : List (String × String) × List (String × List String) :=
  let name := nameOrId target
  (mapSet acc.1 target.targetId name, setMapAdd acc.2 name target.targetId)

/-- Baseline edge step of the historical copy (identical to the current one). -/
def stepEdgeBaselineOld (m : List (String × List String)) (target : OldTarget) :
    List (String × List String) :=
  mapSet m target.targetId (target.dependents.foldl setAdd (getD m target.targetId))

/-- Additional-snapshot edge step of the historical copy: the dependency
reverse edge is added only when the dependency already has an entry
(`const s = map.get(depId); if (s) s.add(...)`) — missing entries are NOT
initialized, unlike the current copy. -/
def stepEdgeAdditionalOld (m : List (String × List String)) (target : OldTarget) :
    List (String × List String) :=
  let m₁ := mapSet m target.targetId
    (target.dependents.foldl setAdd (getD m target.targetId))
  target.dependencies.foldl
    (fun acc depId =>
      match mapGet? acc depId with
      | some dependencyDependentIds => mapSet acc depId (setAdd dependencyDependentIds target.targetId)
      | none => acc) m₁

/-- The historical (duplicated) copy of `buildHydratedDag`. -/
def buildHydratedDagOld (baselineTargets : OldCachedBuildTargets)
    (additionalTargets : List OldCachedBuildTargets) : Except String HydratedDag :=
  if baselineTargets.mode ≠ Mode.fullDag then
    Except.error ("Baseline commit " ++ baselineTargets.headSha ++
      " must have full-dag mode, got " ++ modeString baselineTargets.mode)
  else
    let nm₀ := baselineTargets.graph.foldl stepNameOld ([], [])
    let nm₁ := additionalTargets.foldl (fun acc ts => ts.graph.foldl stepNameOld acc) nm₀
    let e₀ := baselineTargets.graph.foldl stepEdgeBaselineOld []
    let e₁ := additionalTargets.foldl (fun acc ts => ts.graph.foldl stepEdgeAdditionalOld acc) e₀
    Except.ok ⟨e₁, nm₁.1, nm₁.2⟩

/-- Field-by-field projection of a current graph node onto the historical
flat shape. -/
def toOldTarget (n : TargetNode) : OldTarget :=
  ⟨n.target.targetId, n.target.targetName, n.dependencies, n.dependents⟩

/-- Projection of a current snapshot onto the historical shape. -/
def toOldSnapshot (ts : CachedBuildTargets) : OldCachedBuildTargets :=
  ⟨ts.mode, ts.headSha, ts.targetIds, ts.graph.map toOldTarget⟩

/-- Closure-engine output element (`compute_transitive_targets.ts`). -/
structure Target : Type where
  id : String
  name : String
deriving DecidableEq

/-- Seed resolution loop of `computeTransitiveTargets`: resolved names
contribute all their target ids, unresolved names are collected into
`packagesNotInDag`. -/
def resolveSeeds (directPackageNames : List String) (hydratedDag : HydratedDag) :
    List String × List String :=
  directPackageNames.foldl
    (fun acc name =>
      match mapGet? hydratedDag.nameToTargetIds name with
      | some targetIds => (acc.1 ++ targetIds, acc.2)
      | none => (acc.1, acc.2 ++ [name]))
    ([], [])

/-- All ids occurring in the adjacency map (keys and dependent sets); a
bounding universe for the worklist. -/
def allIds (adj : List (String × List String)) : List String :=
  adj.map Prod.fst ++ (adj.map Prod.snd).flatten

/-- Filtering with a stronger predicate keeps at most as many elements. -/
theorem length_filter_le_of_imp (l : List String) (p q : String → Bool)
    (h : ∀ a, p a = true → q a = true) :
    (l.filter p).length ≤ (l.filter q).length := by
  induction l with
  | nil => simp
  | cons a t ih =>
    cases hp : p a with
    | true =>
      have hq := h a hp
      simp [List.filter_cons, hp, hq]
      omega
    | false =>
      cases hq : q a with
      | true => simp [List.filter_cons, hp, hq]; omega
      | false => simp [List.filter_cons, hp, hq]; omega

/-- Filtering a duplicate-free list with a stronger predicate that
additionally drops a kept element keeps strictly fewer elements. -/
theorem length_filter_lt_of_out (l : List String) (p q : String → Bool) (x : String)
    (hnd : l.Nodup) (hx : x ∈ l) (hpq : ∀ a, p a = true → q a = true)
    (hpx : p x = false) (hqx : q x = true) :
    (l.filter p).length < (l.filter q).length := by
  induction l with
  | nil => simp at hx
  | cons a t ih =>
    rcases List.nodup_cons.mp hnd with ⟨-, hndt⟩
    by_cases hax : a = x
    · subst hax
      simp [List.filter_cons, hpx, hqx]
      have := length_filter_le_of_imp t p q hpq
      omega
    · have hxt : x ∈ t := by
        cases hx with
        | head => exact absurd rfl hax
        | tail _ h => exact h
      have iht := ih hndt hxt
      cases hp : p a with
      | true =>
        have hq := hpq a hp
        simp [List.filter_cons, hp, hq]
        omega
      | false =>
        cases hq : q a with
        | true => simp [List.filter_cons, hp, hq]; omega
        | false => simp [List.filter_cons, hp, hq]; omega

/-- A key with a stored value occurs among the map's keys. -/
theorem mem_fst_of_mapGet?_eq_some {α : Type} {m : List (String × α)} {k : String} {v : α}
    (h : mapGet? m k = some v) : k ∈ m.map Prod.fst := by
  induction m with
  | nil => simp [mapGet?] at h
  | cons p t ih =>
    by_cases hp : p.1 = k
    · simp [hp.symm]
    · simp only [mapGet?, hp, if_false] at h
      simpa using Or.inr (ih h)

/-- The `while (toProcess.length > 0)` loop of `computeTransitiveTargets`:
pop a target id, skip it when falsy (empty string) or already processed,
otherwise record it and push its not-yet-processed dependents. -/
def bfsAux (adj : List (String × List String)) :
    List String → List String → List String → List String
  | [], _, result => result
  | targetId :: rest, processed, result =>
    if targetId = "" ∨ targetId ∈ processed then
      bfsAux adj rest processed result
    else
      let dependentIds := getD adj targetId
      let newIds := dependentIds.filter (fun d => decide (d ∉ processed))
      bfsAux adj (rest ++ newIds) (processed ++ [targetId]) (result ++ [targetId])
termination_by queue processed _ =>
  (((allIds adj).dedup.filter (fun a => decide (a ∉ processed))).length, queue.length)
decreasing_by
  · apply Prod.Lex.right
    simp
  · rcases Nat.lt_or_ge
      (((allIds adj).dedup.filter (fun a => decide (a ∉ processed ++ [targetId]))).length)
      (((allIds adj).dedup.filter (fun a => decide (a ∉ processed))).length) with hlt | hge
    · exact Prod.Lex.left _ _ hlt
    · have heq : (((allIds adj).dedup.filter (fun a => decide (a ∉ processed ++ [targetId]))).length) =
          (((allIds adj).dedup.filter (fun a => decide (a ∉ processed))).length) := by
        have hle : (((allIds adj).dedup.filter (fun a => decide (a ∉ processed ++ [targetId]))).length) ≤
            (((allIds adj).dedup.filter (fun a => decide (a ∉ processed))).length) := by
          apply length_filter_le_of_imp
          intro b hb
          simp at hb
          simp [hb.1]
        omega
      by_cases hne : (getD adj targetId).filter (fun d => decide (d ∉ processed)) = []
      · rw [heq]
        apply Prod.Lex.right
        rw [hne]
        simp
      · exfalso
        have hkey : mapGet? adj targetId = some (getD adj targetId) := by
          unfold getD at hne ⊢
          cases h : mapGet? adj targetId with
          | none => simp [h] at hne
          | some l => simp [h]
        have hmem : targetId ∈ allIds adj := by
          unfold allIds
          exact List.mem_append_left _ (mem_fst_of_mapGet?_eq_some hkey)
        rename_i hcond
        have hnp : targetId ∉ processed := fun hc => hcond (Or.inr hc)
        have := length_filter_lt_of_out (allIds adj).dedup
          (fun a => decide (a ∉ processed ++ [targetId]))
          (fun a => decide (a ∉ processed)) targetId
          (allIds adj).nodup_dedup (List.mem_dedup.mpr hmem)
          (by intro b hb; simp at hb; simp [hb.1])
          (by simp) (by simpa using hnp)
        omega

/-- The set `resultTargetIds` of visited target ids, in visit order. -/
def computeVisitedIds (directPackageNames : List String) (hydratedDag : HydratedDag) :
    List String :=
  bfsAux hydratedDag.targetIdToDependentIds
    (resolveSeeds directPackageNames hydratedDag).1 [] []

/-- The emission loop of `computeTransitiveTargets`: a visited id yields a
computed target only when its name lookup is truthy (present and non-empty). -/
def emitVisited (hydratedDag : HydratedDag) (resultTargetIds : List String) : List Target :=
  resultTargetIds.filterMap (fun targetId =>
    match mapGet? hydratedDag.targetIdToName targetId with
    | some name => if name = "" then none else some ⟨targetId, name⟩
    | none => none)

/-- `computeTransitiveTargets` from `compute_transitive_targets.ts`: resolve
seeds, traverse dependents breadth-first, emit named visited targets, then
append a synthetic `{id: name, name}` for every unresolved seed name. -/
def computeTransitiveTargets (directPackageNames : List String)
    (hydratedDag : HydratedDag) : List Target :=
  emitVisited hydratedDag (computeVisitedIds directPackageNames hydratedDag) ++
    (resolveSeeds directPackageNames hydratedDag).2.map (fun name => ⟨name, name⟩)

/-! ### Association-list map lemmas -/

theorem mapGet?_mapSet {α : Type} (m : List (String × α)) (k k' : String) (v : α) :
    mapGet? (mapSet m k v) k' = if k = k' then some v else mapGet? m k' := by
  induction m with
  | nil =>
    by_cases h : k = k' <;> simp [mapSet, mapGet?, h]
  | cons p t ih =>
    obtain ⟨k₀, v₀⟩ := p
    by_cases h0 : k₀ = k
    · subst h0
      by_cases h : k₀ = k' <;> simp [mapSet, mapGet?, h]
    · by_cases h : k₀ = k'
      · subst h
        have hkk : ¬ k = k₀ := fun hc => h0 hc.symm
        simp [mapSet, mapGet?, h0, hkk]
      · simp [mapSet, mapGet?, h0, h, ih]

theorem mapHas_true_iff {α : Type} (m : List (String × α)) (k : String) :
    mapHas m k = true ↔ ∃ v, mapGet? m k = some v := by
  simp [mapHas, Option.isSome_iff_exists]

theorem getD_mapSet (m : List (String × List String)) (k k' : String) (v : List String) :
    getD (mapSet m k v) k' = if k = k' then v else getD m k' := by
  unfold getD
  rw [mapGet?_mapSet]
  by_cases h : k = k' <;> simp [h]

theorem mem_setAdd (s : List String) (x y : String) :
    y ∈ setAdd s x ↔ y ∈ s ∨ y = x := by
  unfold setAdd
  by_cases h : x ∈ s
  · simp only [h, if_true]
    constructor
    · exact Or.inl
    · rintro (hy | rfl) <;> assumption
  · simp [h]

theorem mem_foldl_setAdd (l : List String) (s : List String) (y : String) :
    y ∈ l.foldl setAdd s ↔ y ∈ s ∨ y ∈ l := by
  induction l generalizing s with
  | nil => simp
  | cons a t ih =>
    simp only [List.foldl_cons, ih, mem_setAdd, List.mem_cons]
    tauto

theorem mem_getD_setMapAdd (m : List (String × List String)) (k v k' y : String) :
    y ∈ getD (setMapAdd m k v) k' ↔ y ∈ getD m k' ∨ (k = k' ∧ y = v) := by
  unfold setMapAdd
  rw [getD_mapSet]
  by_cases h : k = k'
  · subst h
    simp [mem_setAdd]
  · simp [h]

theorem mapHas_mapSet {α : Type} (m : List (String × α)) (k k' : String) (v : α) :
    mapHas (mapSet m k v) k' = true ↔ k = k' ∨ mapHas m k' = true := by
  simp only [mapHas, mapGet?_mapSet]
  by_cases h : k = k' <;> simp [h]

theorem mapHas_setMapAdd (m : List (String × List String)) (k v k' : String) :
    mapHas (setMapAdd m k v) k' = true ↔ k = k' ∨ mapHas m k' = true := by
  unfold setMapAdd
  exact mapHas_mapSet ..

theorem getD_eq_of_mapGet? {m : List (String × List String)} {k : String} {s : List String}
    (h : mapGet? m k = some s) : getD m k = s := by
  simp [getD, h]

/-! ### Characterization of the edge folds of `buildHydratedDag` -/

theorem mem_getD_stepEdgeBaseline (m : List (String × List String)) (node : TargetNode)
    (k y : String) :
    y ∈ getD (stepEdgeBaseline m node) k ↔
      y ∈ getD m k ∨ (k = node.target.targetId ∧ y ∈ node.dependents) := by
  unfold stepEdgeBaseline
  rw [getD_mapSet]
  by_cases h : node.target.targetId = k
  · subst h
    simp [mem_foldl_setAdd]
  · have : ¬ k = node.target.targetId := fun hc => h hc.symm
    simp [h, this]

theorem mapHas_stepEdgeBaseline (m : List (String × List String)) (node : TargetNode)
    (k : String) :
    mapHas (stepEdgeBaseline m node) k = true ↔
      mapHas m k = true ∨ k = node.target.targetId := by
  unfold stepEdgeBaseline
  rw [mapHas_mapSet]
  constructor
  · rintro (h | h)
    · exact Or.inr h.symm
    · exact Or.inl h
  · rintro (h | h)
    · exact Or.inr h
    · exact Or.inl h.symm

theorem mem_getD_depFold (deps : List String) (tid : String)
    (m : List (String × List String)) (k y : String) :
    y ∈ getD (deps.foldl (fun acc depId => setMapAdd acc depId tid) m) k ↔
      y ∈ getD m k ∨ (k ∈ deps ∧ y = tid) := by
  induction deps generalizing m with
  | nil => simp
  | cons a t ih =>
    simp only [List.foldl_cons, ih, mem_getD_setMapAdd, List.mem_cons]
    constructor
    · rintro ((h | ⟨rfl, rfl⟩) | ⟨h1, rfl⟩) <;> tauto
    · rintro (h | ⟨(rfl | h1), rfl⟩) <;> tauto

theorem mapHas_depFold (deps : List String) (tid : String)
    (m : List (String × List String)) (k : String) :
    mapHas (deps.foldl (fun acc depId => setMapAdd acc depId tid) m) k = true ↔
      mapHas m k = true ∨ k ∈ deps := by
  induction deps generalizing m with
  | nil => simp
  | cons a t ih =>
    simp only [List.foldl_cons, ih, mapHas_setMapAdd, List.mem_cons]
    constructor
    · rintro ((rfl | h) | h) <;> tauto
    · rintro (h | (rfl | h)) <;> tauto

theorem mem_getD_stepEdgeAdditional (m : List (String × List String)) (node : TargetNode)
    (k y : String) :
    y ∈ getD (stepEdgeAdditional m node) k ↔
      y ∈ getD m k ∨ (k = node.target.targetId ∧ y ∈ node.dependents) ∨
        (k ∈ node.dependencies ∧ y = node.target.targetId) := by
  unfold stepEdgeAdditional
  rw [mem_getD_depFold]
  have := mem_getD_stepEdgeBaseline m node k y
  unfold stepEdgeBaseline at this
  rw [this]
  tauto

theorem mapHas_stepEdgeAdditional (m : List (String × List String)) (node : TargetNode)
    (k : String) :
    mapHas (stepEdgeAdditional m node) k = true ↔
      mapHas m k = true ∨ k = node.target.targetId ∨ k ∈ node.dependencies := by
  unfold stepEdgeAdditional
  rw [mapHas_depFold]
  have := mapHas_stepEdgeBaseline m node k
  unfold stepEdgeBaseline at this
  rw [this]
  tauto

theorem mem_getD_foldl_baseline (nodes : List TargetNode)
    (m : List (String × List String)) (k y : String) :
    y ∈ getD (nodes.foldl stepEdgeBaseline m) k ↔
      y ∈ getD m k ∨ ∃ n ∈ nodes, k = n.target.targetId ∧ y ∈ n.dependents := by
  induction nodes generalizing m with
  | nil => simp
  | cons a t ih =>
    simp only [List.foldl_cons, ih, mem_getD_stepEdgeBaseline, List.mem_cons]
    constructor
    · rintro ((h | h) | ⟨n, hn, hk⟩)
      · exact Or.inl h
      · exact Or.inr ⟨a, Or.inl rfl, h⟩
      · exact Or.inr ⟨n, Or.inr hn, hk⟩
    · rintro (h | ⟨n, (rfl | hn), hk⟩)
      · exact Or.inl (Or.inl h)
      · exact Or.inl (Or.inr hk)
      · exact Or.inr ⟨n, hn, hk⟩

theorem mapHas_foldl_baseline (nodes : List TargetNode)
    (m : List (String × List String)) (k : String) :
    mapHas (nodes.foldl stepEdgeBaseline m) k = true ↔
      mapHas m k = true ∨ ∃ n ∈ nodes, k = n.target.targetId := by
  induction nodes generalizing m with
  | nil => simp
  | cons a t ih =>
    simp only [List.foldl_cons, ih, mapHas_stepEdgeBaseline, List.mem_cons]
    constructor
    · rintro ((h | h) | ⟨n, hn, hk⟩)
      · exact Or.inl h
      · exact Or.inr ⟨a, Or.inl rfl, h⟩
      · exact Or.inr ⟨n, Or.inr hn, hk⟩
    · rintro (h | ⟨n, (rfl | hn), hk⟩)
      · exact Or.inl (Or.inl h)
      · exact Or.inl (Or.inr hk)
      · exact Or.inr ⟨n, hn, hk⟩

/-- Shorthand for the edge contribution of one additional-snapshot node. -/
def nodeEdge (n : TargetNode) (k y : String) : Prop :=
  (k = n.target.targetId ∧ y ∈ n.dependents) ∨
    (k ∈ n.dependencies ∧ y = n.target.targetId)

theorem mem_getD_foldl_additional (nodes : List TargetNode)
    (m : List (String × List String)) (k y : String) :
    y ∈ getD (nodes.foldl stepEdgeAdditional m) k ↔
      y ∈ getD m k ∨ ∃ n ∈ nodes, nodeEdge n k y := by
  induction nodes generalizing m with
  | nil => simp
  | cons a t ih =>
    simp only [List.foldl_cons, ih, mem_getD_stepEdgeAdditional, List.mem_cons, nodeEdge]
    constructor
    · rintro ((h | h | h) | ⟨n, hn, hk⟩)
      · exact Or.inl h
      · exact Or.inr ⟨a, Or.inl rfl, Or.inl h⟩
      · exact Or.inr ⟨a, Or.inl rfl, Or.inr h⟩
      · exact Or.inr ⟨n, Or.inr hn, hk⟩
    · rintro (h | ⟨n, (rfl | hn), hk⟩)
      · exact Or.inl (Or.inl h)
      · exact Or.inl (Or.inr hk)
      · exact Or.inr ⟨n, hn, hk⟩

theorem mapHas_foldl_additional (nodes : List TargetNode)
    (m : List (String × List String)) (k : String) :
    mapHas (nodes.foldl stepEdgeAdditional m) k = true ↔
      mapHas m k = true ∨ ∃ n ∈ nodes, k = n.target.targetId ∨ k ∈ n.dependencies := by
  induction nodes generalizing m with
  | nil => simp
  | cons a t ih =>
    simp only [List.foldl_cons, ih, mapHas_stepEdgeAdditional, List.mem_cons]
    constructor
    · rintro ((h | h | h) | ⟨n, hn, hk⟩)
      · exact Or.inl h
      · exact Or.inr ⟨a, Or.inl rfl, Or.inl h⟩
      · exact Or.inr ⟨a, Or.inl rfl, Or.inr h⟩
      · exact Or.inr ⟨n, Or.inr hn, hk⟩
    · rintro (h | ⟨n, (rfl | hn), hk⟩)
      · exact Or.inl (Or.inl h)
      · exact Or.inl (Or.inr hk)
      · exact Or.inr ⟨n, hn, hk⟩

theorem mem_getD_foldl_adds (adds : List CachedBuildTargets)
    (m : List (String × List String)) (k y : String) :
    y ∈ getD (adds.foldl (fun acc ts => ts.graph.foldl stepEdgeAdditional acc) m) k ↔
      y ∈ getD m k ∨ ∃ ts ∈ adds, ∃ n ∈ ts.graph, nodeEdge n k y := by
  induction adds generalizing m with
  | nil => simp
  | cons s t ih =>
    simp only [List.foldl_cons, ih, mem_getD_foldl_additional, List.mem_cons]
    constructor
    · rintro ((h | ⟨n, hn, hk⟩) | ⟨ts, hts, hn⟩)
      · exact Or.inl h
      · exact Or.inr ⟨s, Or.inl rfl, n, hn, hk⟩
      · exact Or.inr ⟨ts, Or.inr hts, hn⟩
    · rintro (h | ⟨ts, (rfl | hts), hn⟩)
      · exact Or.inl (Or.inl h)
      · exact Or.inl (Or.inr hn)
      · exact Or.inr ⟨ts, hts, hn⟩

theorem mapHas_foldl_adds (adds : List CachedBuildTargets)
    (m : List (String × List String)) (k : String) :
    mapHas (adds.foldl (fun acc ts => ts.graph.foldl stepEdgeAdditional acc) m) k = true ↔
      mapHas m k = true ∨
        ∃ ts ∈ adds, ∃ n ∈ ts.graph, k = n.target.targetId ∨ k ∈ n.dependencies := by
  induction adds generalizing m with
  | nil => simp
  | cons s t ih =>
    simp only [List.foldl_cons, ih, mapHas_foldl_additional, List.mem_cons]
    constructor
    · rintro ((h | ⟨n, hn, hk⟩) | ⟨ts, hts, hn⟩)
      · exact Or.inl h
      · exact Or.inr ⟨s, Or.inl rfl, n, hn, hk⟩
      · exact Or.inr ⟨ts, Or.inr hts, hn⟩
    · rintro (h | ⟨ts, (rfl | hts), hn⟩)
      · exact Or.inl (Or.inl h)
      · exact Or.inl (Or.inr hn)
      · exact Or.inr ⟨ts, hts, hn⟩

/-- Success inversion for `buildHydratedDag`: the mode was `full-dag` and the
three returned tables are the corresponding folds. -/
theorem buildHydratedDag_ok {b : CachedBuildTargets} {adds : List CachedBuildTargets}
    {d : HydratedDag} (h : buildHydratedDag b adds = Except.ok d) :
    b.mode = Mode.fullDag ∧
      d.targetIdToDependentIds =
        adds.foldl (fun acc ts => ts.graph.foldl stepEdgeAdditional acc)
          (b.graph.foldl stepEdgeBaseline []) ∧
      d.targetIdToName =
        (adds.foldl (fun acc ts => ts.graph.foldl stepName acc)
          (b.graph.foldl stepName ([], []))).1 ∧
      d.nameToTargetIds =
        (adds.foldl (fun acc ts => ts.graph.foldl stepName acc)
          (b.graph.foldl stepName ([], []))).2 := by
  unfold buildHydratedDag at h
  by_cases hm : b.mode = Mode.fullDag
  · simp only [hm, ne_eq, not_true_eq_false, if_false, Except.ok.injEq] at h
    subst h
    exact ⟨hm, rfl, rfl, rfl⟩
  · simp [hm] at h

/-- Full membership characterization of the merged reverse-edge adjacency. -/
theorem buildHydratedDag_edges_char {b : CachedBuildTargets} {adds : List CachedBuildTargets}
    {d : HydratedDag} (h : buildHydratedDag b adds = Except.ok d) (k y : String) :
    y ∈ getD d.targetIdToDependentIds k ↔
      (∃ n ∈ b.graph, k = n.target.targetId ∧ y ∈ n.dependents) ∨
        ∃ ts ∈ adds, ∃ n ∈ ts.graph, nodeEdge n k y := by
  rw [(buildHydratedDag_ok h).2.1, mem_getD_foldl_adds, mem_getD_foldl_baseline]
  simp [getD, mapGet?]

/-- Full key-set characterization of the merged reverse-edge adjacency. -/
theorem buildHydratedDag_has_char {b : CachedBuildTargets} {adds : List CachedBuildTargets}
    {d : HydratedDag} (h : buildHydratedDag b adds = Except.ok d) (k : String) :
    mapHas d.targetIdToDependentIds k = true ↔
      (∃ n ∈ b.graph, k = n.target.targetId) ∨
        ∃ ts ∈ adds, ∃ n ∈ ts.graph, k = n.target.targetId ∨ k ∈ n.dependencies := by
  rw [(buildHydratedDag_ok h).2.1, mapHas_foldl_adds, mapHas_foldl_baseline]
  simp [mapHas, mapGet?]

/-! ### Concrete fixtures -/

/-- A full-dag baseline whose first node declares a dependency on `y` that is
never mirrored as a `dependents` entry anywhere. -/
def baselineXY : CachedBuildTargets :=
  ⟨Mode.fullDag, "base", none, [],
    [⟨⟨"x", some "x"⟩, ["y"], []⟩, ⟨⟨"y", some "y"⟩, [], []⟩]⟩

/-- Hydration result for `baselineXY` with no additional snapshots. -/
def dagBaselineXY : HydratedDag :=
  (buildHydratedDag baselineXY []).toOption.getD ⟨[], [], []⟩

/-- A full-dag baseline with an empty graph. -/
def bEmpty : CachedBuildTargets := ⟨Mode.fullDag, "baseline123", none, [], []⟩

/-- A filtered snapshot declaring node `x` with the single dependency `y`. -/
def snapXY : CachedBuildTargets :=
  ⟨Mode.filtered, "sha1", some "base123", [],
    [⟨⟨"x", some "x"⟩, ["y"], []⟩]⟩

/-- A filtered snapshot declaring node `z` with the single dependent `w`. -/
def snapZW : CachedBuildTargets :=
  ⟨Mode.filtered, "sha2", some "base123", [],
    [⟨⟨"z", some "z"⟩, [], ["w"]⟩]⟩

/-- Hydration result for `bEmpty` with `snapXY`. -/
def dagXY : HydratedDag :=
  (buildHydratedDag bEmpty [snapXY]).toOption.getD ⟨[], [], []⟩

/-- Hydration result for the snapshot order `snapXY, snapZW`. -/
def dagPermA : HydratedDag :=
  (buildHydratedDag bEmpty [snapXY, snapZW]).toOption.getD ⟨[], [], []⟩

/-- Hydration result for the snapshot order `snapZW, snapXY`. -/
def dagPermB : HydratedDag :=
  (buildHydratedDag bEmpty [snapZW, snapXY]).toOption.getD ⟨[], [], []⟩

/-- A baseline in filtered mode, violating the precondition. -/
def filtBase : CachedBuildTargets := ⟨Mode.filtered, "abc123", some "base123", [], []⟩

/-! ### Claims C1, C4, C5, C7 -/

/-- Claim C1 counterexample: the baseline node `x` declares the dependency
`y`, yet after hydration `x` is NOT a member of
`targetIdToDependentIds[y]` — the baseline edge loop folds only declared
`dependents`, never `dependencies`, so the claim fails for baseline nodes. -/
theorem baseline_dependency_edge_missing_cex :
    buildHydratedDag baselineXY [] = Except.ok dagBaselineXY ∧
      (⟨⟨"x", some "x"⟩, ["y"], []⟩ : TargetNode) ∈ baselineXY.graph ∧
      "y" ∈ (⟨⟨"x", some "x"⟩, ["y"], []⟩ : TargetNode).dependencies ∧
      "x" ∉ getD dagBaselineXY.targetIdToDependentIds "y" :=
  ⟨rfl, by decide, by decide, by decide⟩

/-- Claim C1 (amended): for every node of every ADDITIONAL snapshot and every
id listed in that node's declared dependencies, the node's targetId is a
member of `targetIdToDependentIds[dependencyId]` in the returned
`HydratedDag`; baseline nodes contribute only their declared `dependents`,
their `dependencies` are ignored. -/
theorem additional_dependency_yields_reverse_edge (b : CachedBuildTargets)
    (adds : List CachedBuildTargets) (d : HydratedDag) (ts : CachedBuildTargets)
    (node : TargetNode) (depId : String)
    (h : buildHydratedDag b adds = Except.ok d) (hts : ts ∈ adds) (hn : node ∈ ts.graph)
    (hdep : depId ∈ node.dependencies) :
    node.target.targetId ∈ getD d.targetIdToDependentIds depId := by
  rw [buildHydratedDag_edges_char h]
  exact Or.inr ⟨ts, hts, node, hn, Or.inr ⟨hdep, rfl⟩⟩

/-- Witness for the amended claim C1 at a concrete input. -/
theorem additional_dependency_yields_reverse_edge_witness :
    "x" ∈ getD dagXY.targetIdToDependentIds "y" :=
  additional_dependency_yields_reverse_edge bEmpty [snapXY] dagXY snapXY
    ⟨⟨"x", some "x"⟩, ["y"], []⟩ "y" rfl (by decide) (by decide) (by decide)

/-- Claim C4: a baseline whose mode is not full-dag makes `buildHydratedDag`
fail with a configuration error naming the offending commit (its `headSha`)
and the observed mode, producing no hydration output; a full-dag baseline
always passes the mode check. -/
theorem mode_precondition_check (b : CachedBuildTargets) (adds : List CachedBuildTargets) :
    (b.mode ≠ Mode.fullDag →
      buildHydratedDag b adds = Except.error ("Baseline commit " ++ b.headSha ++
        " must have full-dag mode, got " ++ modeString b.mode)) ∧
    (b.mode = Mode.fullDag → ∃ d, buildHydratedDag b adds = Except.ok d) := by
  constructor
  · intro h
    unfold buildHydratedDag
    rw [if_pos h]
  · intro h
    unfold buildHydratedDag
    rw [if_neg (by simp [h])]
    exact ⟨_, rfl⟩

/-- Witness for claim C4: a filtered baseline fails with the full message,
a full-dag baseline succeeds. -/
theorem mode_precondition_check_witness :
    buildHydratedDag filtBase [] = Except.error ("Baseline commit " ++ filtBase.headSha ++
      " must have full-dag mode, got " ++ modeString filtBase.mode) ∧
    ∃ d, buildHydratedDag bEmpty [] = Except.ok d :=
  ⟨(mode_precondition_check filtBase []).1 (by decide),
    (mode_precondition_check bEmpty []).2 rfl⟩

/-- Claim C5: for a fixed baseline and any permutation of the additional
snapshots, the hydrated `targetIdToDependentIds` has the same key set and,
for every key, the same dependent set — edge accumulation is
order-independent. -/
theorem edge_accumulation_perm_invariant (b : CachedBuildTargets)
    (adds adds' : List CachedBuildTargets) (d d' : HydratedDag)
    (hperm : adds.Perm adds')
    (h : buildHydratedDag b adds = Except.ok d)
    (h' : buildHydratedDag b adds' = Except.ok d') :
    (∀ k, mapHas d.targetIdToDependentIds k = true ↔
      mapHas d'.targetIdToDependentIds k = true) ∧
    (∀ k y, y ∈ getD d.targetIdToDependentIds k ↔ y ∈ getD d'.targetIdToDependentIds k) := by
  constructor
  · intro k
    rw [buildHydratedDag_has_char h, buildHydratedDag_has_char h']
    constructor
    · rintro (hb | ⟨ts, hts, rest⟩)
      · exact Or.inl hb
      · exact Or.inr ⟨ts, hperm.mem_iff.mp hts, rest⟩
    · rintro (hb | ⟨ts, hts, rest⟩)
      · exact Or.inl hb
      · exact Or.inr ⟨ts, hperm.mem_iff.mpr hts, rest⟩
  · intro k y
    rw [buildHydratedDag_edges_char h, buildHydratedDag_edges_char h']
    constructor
    · rintro (hb | ⟨ts, hts, rest⟩)
      · exact Or.inl hb
      · exact Or.inr ⟨ts, hperm.mem_iff.mp hts, rest⟩
    · rintro (hb | ⟨ts, hts, rest⟩)
      · exact Or.inl hb
      · exact Or.inr ⟨ts, hperm.mem_iff.mpr hts, rest⟩

/-- Witness for claim C5 on a concrete two-snapshot permutation. -/
theorem edge_accumulation_perm_invariant_witness :
    (∀ k, mapHas dagPermA.targetIdToDependentIds k = true ↔
      mapHas dagPermB.targetIdToDependentIds k = true) ∧
    (∀ k y, y ∈ getD dagPermA.targetIdToDependentIds k ↔
      y ∈ getD dagPermB.targetIdToDependentIds k) :=
  edge_accumulation_perm_invariant bEmpty [snapXY, snapZW] [snapZW, snapXY]
    dagPermA dagPermB (List.Perm.swap snapZW snapXY []) rfl rfl

/-- Claim C7: if an additional snapshot declares node `X` with
`dependencies = [Y]`, then after hydration `targetIdToDependentIds[Y]`
contains `X`, even when the baseline never lists `X` among `Y`'s dependents
(missing entries are initialized to empty sets before insertion). -/
theorem reverse_edge_synthesized_for_missing_entry (b : CachedBuildTargets)
    (adds : List CachedBuildTargets) (d : HydratedDag) (ts : CachedBuildTargets)
    (node : TargetNode) (yId : String)
    (h : buildHydratedDag b adds = Except.ok d) (hts : ts ∈ adds) (hn : node ∈ ts.graph)
    (hdep : node.dependencies = [yId])
    (hbase : ∀ n ∈ b.graph, node.target.targetId ∉ n.dependents) :
    node.target.targetId ∈ getD d.targetIdToDependentIds yId := by
  rw [buildHydratedDag_edges_char h]
  exact Or.inr ⟨ts, hts, node, hn, Or.inr ⟨by simp [hdep], rfl⟩⟩

/-- Witness for claim C7: `y` has no entry at all before `snapXY` is folded,
yet ends up with `x` among its dependents. -/
theorem reverse_edge_synthesized_for_missing_entry_witness :
    (∀ n ∈ bEmpty.graph, ("x" : String) ∉ n.dependents) ∧
      "x" ∈ getD dagXY.targetIdToDependentIds "y" :=
  ⟨by decide,
    reverse_edge_synthesized_for_missing_entry bEmpty [snapXY] dagXY snapXY
      ⟨⟨"x", some "x"⟩, ["y"], []⟩ "y" rfl (by decide) (by decide) (by decide) (by decide)⟩

/-! ### Characterization of the name folds of `buildHydratedDag` -/

/-- The name recorded by the last (most recently processed) declaration of a
target id in a node list, if any. -/
def lastName? (nodes : List TargetNode) (tid : String) : Option String :=
  nodes.foldl
    (fun acc n => if n.target.targetId = tid then some (fallbackName n.target) else acc) none

theorem foldl_lastName_acc (nodes : List TargetNode) (tid : String) (acc : Option String) :
    nodes.foldl
      (fun acc n => if n.target.targetId = tid then some (fallbackName n.target) else acc)
      acc = (lastName? nodes tid).or acc := by
  induction nodes generalizing acc with
  | nil => simp [lastName?]
  | cons n ns ih =>
    simp only [List.foldl_cons]
    rw [ih]
    conv_rhs => rw [lastName?]
    simp only [List.foldl_cons]
    rw [show (ns.foldl
      (fun acc n => if n.target.targetId = tid then some (fallbackName n.target) else acc)
      (if n.target.targetId = tid then some (fallbackName n.target) else none)) =
        (lastName? ns tid).or
          (if n.target.targetId = tid then some (fallbackName n.target) else none) from ih _]
    by_cases h : n.target.targetId = tid
    · simp only [h, if_true]
      rw [Option.or_assoc]
      simp
    · simp [h]

theorem foldl_stepName_fst (nodes : List TargetNode)
    (acc : List (String × String) × List (String × List String)) :
    (nodes.foldl stepName acc).1 =
      nodes.foldl (fun m n => mapSet m n.target.targetId (fallbackName n.target)) acc.1 := by
  induction nodes generalizing acc with
  | nil => rfl
  | cons n ns ih => simp only [List.foldl_cons, ih, stepName]

theorem foldl_stepName_snd (nodes : List TargetNode)
    (acc : List (String × String) × List (String × List String)) :
    (nodes.foldl stepName acc).2 =
      nodes.foldl (fun m n => setMapAdd m (fallbackName n.target) n.target.targetId) acc.2 := by
  induction nodes generalizing acc with
  | nil => rfl
  | cons n ns ih => simp only [List.foldl_cons, ih, stepName]

theorem mapGet?_nameFold (nodes : List TargetNode) (m : List (String × String)) (tid : String) :
    mapGet? (nodes.foldl (fun m n => mapSet m n.target.targetId (fallbackName n.target)) m) tid
      = (lastName? nodes tid).or (mapGet? m tid) := by
  induction nodes generalizing m with
  | nil => simp [lastName?]
  | cons n ns ih =>
    simp only [List.foldl_cons]
    rw [ih, mapGet?_mapSet]
    conv_rhs => rw [lastName?]
    simp only [List.foldl_cons]
    rw [foldl_lastName_acc, Option.or_assoc]
    by_cases h : n.target.targetId = tid
    · simp [h]
    · have h' : ¬ tid = n.target.targetId := fun hc => h hc.symm
      simp [h, h']

theorem mem_getD_nameToFold (nodes : List TargetNode) (m : List (String × List String))
    (a tid : String) :
    tid ∈ getD
        (nodes.foldl (fun m n => setMapAdd m (fallbackName n.target) n.target.targetId) m) a ↔
      tid ∈ getD m a ∨ ∃ n ∈ nodes, fallbackName n.target = a ∧ n.target.targetId = tid := by
  induction nodes generalizing m with
  | nil => simp
  | cons n ns ih =>
    simp only [List.foldl_cons, ih, mem_getD_setMapAdd, List.mem_cons]
    constructor
    · rintro ((h | ⟨h1, h2⟩) | ⟨n', hn', hk⟩)
      · exact Or.inl h
      · exact Or.inr ⟨n, Or.inl rfl, h1, h2.symm⟩
      · exact Or.inr ⟨n', Or.inr hn', hk⟩
    · rintro (h | ⟨n', (rfl | hn'), hk1, hk2⟩)
      · exact Or.inl (Or.inl h)
      · exact Or.inl (Or.inr ⟨hk1, hk2.symm⟩)
      · exact Or.inr ⟨n', hn', hk1, hk2⟩

/-- Collapse the nested snapshot/node fold into a fold over one node list. -/
theorem foldl_snapshots {β : Type} (f : β → TargetNode → β) (adds : List CachedBuildTargets)
    (acc : β) :
    adds.foldl (fun a ts => ts.graph.foldl f a) acc =
      ((adds.map CachedBuildTargets.graph).flatten).foldl f acc := by
  induction adds generalizing acc with
  | nil => rfl
  | cons s t ih => simp only [List.foldl_cons, List.map_cons, List.flatten_cons,
      List.foldl_append, ih]

/-- All nodes folded by `buildHydratedDag`, baseline first, in order. -/
def allNodes (b : CachedBuildTargets) (adds : List CachedBuildTargets) : List TargetNode :=
  b.graph ++ (adds.map CachedBuildTargets.graph).flatten

/-- `targetIdToName` holds exactly the most recently processed declaration's
name for each target id. -/
theorem buildHydratedDag_name_char {b : CachedBuildTargets} {adds : List CachedBuildTargets}
    {d : HydratedDag} (h : buildHydratedDag b adds = Except.ok d) (tid : String) :
    mapGet? d.targetIdToName tid = lastName? (allNodes b adds) tid := by
  rw [(buildHydratedDag_ok h).2.2.1, foldl_snapshots, ← List.foldl_append, foldl_stepName_fst,
    mapGet?_nameFold]
  simp [allNodes, mapGet?]

/-- `nameToTargetIds[a]` contains exactly the ids some folded node declared
under name `a` (entries are never removed). -/
theorem buildHydratedDag_nameTo_char {b : CachedBuildTargets} {adds : List CachedBuildTargets}
    {d : HydratedDag} (h : buildHydratedDag b adds = Except.ok d) (a tid : String) :
    tid ∈ getD d.nameToTargetIds a ↔
      ∃ n ∈ allNodes b adds, fallbackName n.target = a ∧ n.target.targetId = tid := by
  rw [(buildHydratedDag_ok h).2.2.2, foldl_snapshots, ← List.foldl_append, foldl_stepName_snd,
    mem_getD_nameToFold]
  simp [allNodes, getD, mapGet?]

theorem lastName?_append (l₁ l₂ : List TargetNode) (tid : String) :
    lastName? (l₁ ++ l₂) tid = (lastName? l₂ tid).or (lastName? l₁ tid) := by
  unfold lastName?
  rw [List.foldl_append, foldl_lastName_acc]
  rfl

theorem lastName?_eq_none {l : List TargetNode} {tid : String}
    (h : ∀ n ∈ l, n.target.targetId ≠ tid) : lastName? l tid = none := by
  induction l with
  | nil => rfl
  | cons n ns ih =>
    have : lastName? (n :: ns) tid = (lastName? ns tid).or
        (if n.target.targetId = tid then some (fallbackName n.target) else none) := by
      unfold lastName?
      simp only [List.foldl_cons]
      rw [foldl_lastName_acc]
      rfl
    rw [this, ih (fun m hm => h m (List.mem_cons_of_mem _ hm)),
      if_neg (h n (List.mem_cons_self _ _))]
    rfl

/-! ### Claim C6 -/

/-- Claim C6: if the baseline declares target `tid` under name `a` and a later
additional snapshot re-declares the same `tid` under name `bName` — and that
re-declaration is the most recently processed one for `tid` — then after
hydration `targetIdToName[tid] = bName` (the most recently processed
snapshot's name wins) while `nameToTargetIds[a]` still contains `tid` (the
stale alias under the old name is never removed). -/
theorem name_override_keeps_stale_alias (b : CachedBuildTargets)
    (adds₁ adds₂ : List CachedBuildTargets) (snap : CachedBuildTargets) (d : HydratedDag)
    (tid a bName : String) (nb node : TargetNode) (g₁ g₂ : List TargetNode)
    (h : buildHydratedDag b (adds₁ ++ snap :: adds₂) = Except.ok d)
    (hnb : nb ∈ b.graph) (hnbT : nb.target = ⟨tid, some a⟩)
    (hg : snap.graph = g₁ ++ node :: g₂) (hnode : node.target = ⟨tid, some bName⟩)
    (hg₂ : ∀ n ∈ g₂, n.target.targetId ≠ tid)
    (hadds₂ : ∀ ts ∈ adds₂, ∀ n ∈ ts.graph, n.target.targetId ≠ tid) :
    mapGet? d.targetIdToName tid = some bName ∧ tid ∈ getD d.nameToTargetIds a := by
  constructor
  · rw [buildHydratedDag_name_char h]
    unfold allNodes
    rw [lastName?_append]
    have hflat : (((adds₁ ++ snap :: adds₂).map CachedBuildTargets.graph).flatten) =
        ((adds₁.map CachedBuildTargets.graph).flatten) ++
          (snap.graph ++ ((adds₂.map CachedBuildTargets.graph).flatten)) := by
      simp
    rw [hflat, lastName?_append, lastName?_append]
    have h₂ : lastName? ((adds₂.map CachedBuildTargets.graph).flatten) tid = none := by
      apply lastName?_eq_none
      intro n hn
      rcases List.mem_flatten.mp hn with ⟨g, hg', hng⟩
      rcases List.mem_map.mp hg' with ⟨ts, hts, rfl⟩
      exact hadds₂ ts hts n hng
    have hsnap : lastName? snap.graph tid = some bName := by
      rw [hg, lastName?_append]
      have hcons : lastName? (node :: g₂) tid = some bName := by
        have : lastName? (node :: g₂) tid = (lastName? g₂ tid).or
            (if node.target.targetId = tid then some (fallbackName node.target) else none) := by
          unfold lastName?
          simp only [List.foldl_cons]
          rw [foldl_lastName_acc]
          rfl
        rw [this, lastName?_eq_none hg₂, hnode]
        simp [fallbackName]
      rw [hcons]
      rfl
    rw [h₂, hsnap]
    simp
  · rw [buildHydratedDag_nameTo_char h]
    refine ⟨nb, List.mem_append_left _ hnb, ?_, ?_⟩
    · rw [hnbT]
      rfl
    · rw [hnbT]

/-- A baseline declaring target `t1` under the name `pkg-a`. -/
def baseRename : CachedBuildTargets :=
  ⟨Mode.fullDag, "base", none, [], [⟨⟨"t1", some "pkg-a"⟩, [], []⟩]⟩

/-- An additional snapshot re-declaring `t1` under the name `pkg-b`. -/
def snapRename : CachedBuildTargets :=
  ⟨Mode.filtered, "sha1", some "base", [], [⟨⟨"t1", some "pkg-b"⟩, [], []⟩]⟩

/-- Hydration result of the rename scenario. -/
def dagRename : HydratedDag :=
  (buildHydratedDag baseRename [snapRename]).toOption.getD ⟨[], [], []⟩

/-- Witness for claim C6 on the concrete rename scenario. -/
theorem name_override_keeps_stale_alias_witness :
    mapGet? dagRename.targetIdToName "t1" = some "pkg-b" ∧
      "t1" ∈ getD dagRename.nameToTargetIds "pkg-a" :=
  name_override_keeps_stale_alias baseRename [] [] snapRename dagRename
    "t1" "pkg-a" "pkg-b" ⟨⟨"t1", some "pkg-a"⟩, [], []⟩ ⟨⟨"t1", some "pkg-b"⟩, [], []⟩ [] []
    rfl (by decide) rfl rfl rfl (by decide) (by decide)

/-! ### Closure-engine lemmas -/

theorem bfs_nodup (adj : List (String × List String)) (queue processed result : List String)
    (h1 : result.Nodup) (h2 : ∀ x ∈ result, x ∈ processed) :
    (bfsAux adj queue processed result).Nodup := by
  induction queue, processed, result using bfsAux.induct adj with
  | case1 result => simpa [bfsAux]
  | case2 targetId rest processed result hc ih =>
    rw [bfsAux]
    simp only [hc, if_true]
    exact ih h1 h2
  | case3 targetId rest processed result hc deps newIds ih =>
    rw [bfsAux]
    simp only [hc, if_false]
    apply ih
    · simp [List.nodup_append, h1]
      intro hmem
      exact hc (Or.inr (h2 _ hmem))
    · intro x hx
      rcases List.mem_append.mp hx with h | h
      · exact List.mem_append_left _ (h2 _ h)
      · simp at h
        simp [h]

theorem computeVisitedIds_nodup (names : List String) (dag : HydratedDag) :
    (computeVisitedIds names dag).Nodup :=
  bfs_nodup _ _ _ _ List.nodup_nil (by simp)

theorem resolveSeeds_go_snd (names : List String) (dag : HydratedDag)
    (acc : List String × List String) :
    (names.foldl
      (fun acc name =>
        match mapGet? dag.nameToTargetIds name with
        | some targetIds => (acc.1 ++ targetIds, acc.2)
        | none => (acc.1, acc.2 ++ [name])) acc).2 =
      acc.2 ++ names.filter (fun nm => !(mapHas dag.nameToTargetIds nm)) := by
  induction names generalizing acc with
  | nil => simp
  | cons a t ih =>
    simp only [List.foldl_cons]
    cases hm : mapGet? dag.nameToTargetIds a with
    | some l =>
      rw [ih]
      have : mapHas dag.nameToTargetIds a = true := by simp [mapHas, hm]
      simp [List.filter_cons, this]
    | none =>
      rw [ih]
      have : mapHas dag.nameToTargetIds a = false := by simp [mapHas, hm]
      simp [List.filter_cons, this]

theorem resolveSeeds_snd (names : List String) (dag : HydratedDag) :
    (resolveSeeds names dag).2 =
      names.filter (fun nm => !(mapHas dag.nameToTargetIds nm)) := by
  unfold resolveSeeds
  rw [resolveSeeds_go_snd]
  rfl

theorem mem_resolveSeeds_snd (names : List String) (dag : HydratedDag) (nm : String) :
    nm ∈ (resolveSeeds names dag).2 ↔
      nm ∈ names ∧ mapGet? dag.nameToTargetIds nm = none := by
  rw [resolveSeeds_snd, List.mem_filter]
  simp [mapHas, Option.isSome_iff_exists]

theorem mem_emitVisited (dag : HydratedDag) (ids : List String) (t : Target) :
    t ∈ emitVisited dag ids ↔
      t.id ∈ ids ∧ mapGet? dag.targetIdToName t.id = some t.name ∧ t.name ≠ "" := by
  unfold emitVisited
  rw [List.mem_filterMap]
  constructor
  · rintro ⟨a, ha, hfa⟩
    cases hm : mapGet? dag.targetIdToName a with
    | none => rw [hm] at hfa; cases hfa
    | some nm =>
      rw [hm] at hfa
      have hfa₂ : (if nm = "" then none else some (⟨a, nm⟩ : Target)) = some t := hfa
      by_cases hnm : nm = ""
      · rw [if_pos hnm] at hfa₂; cases hfa₂
      · rw [if_neg hnm] at hfa₂
        have ht : (⟨a, nm⟩ : Target) = t := Option.some.inj hfa₂
        subst ht
        exact ⟨ha, hm, hnm⟩
  · rintro ⟨hid, hm, hnm⟩
    refine ⟨t.id, hid, ?_⟩
    rw [hm]
    show (if t.name = "" then none else some (⟨t.id, t.name⟩ : Target)) = some t
    rw [if_neg hnm]

/-! ### Claims C2, C3, C8, C9 -/

/-- The collision fixture: target `x` is named `b`, and `x` is itself a
package name absent from `nameToTargetIds`. -/
def dagColl : HydratedDag := ⟨[], [("x", "b")], [("b", ["x"])]⟩

/-- Claim C2 counterexample: seeding `dagColl` with `[b, x]` visits target
`x` (emitting `{id: x, name: b}`) and also passes the unresolved name `x`
through (emitting `{id: x, name: x}`): two distinct result elements share
the id `x`, so the result is not deduplicated by id. -/
theorem result_not_dedup_by_id_cex :
    (⟨"x", "b"⟩ : Target) ∈ computeTransitiveTargets ["b", "x"] dagColl ∧
      (⟨"x", "x"⟩ : Target) ∈ computeTransitiveTargets ["b", "x"] dagColl ∧
      (⟨"x", "b"⟩ : Target) ≠ (⟨"x", "x"⟩ : Target) := by
  have hres : computeTransitiveTargets ["b", "x"] dagColl =
      [⟨"x", "b"⟩, ⟨"x", "x"⟩] := by
    simp [computeTransitiveTargets, computeVisitedIds, resolveSeeds, emitVisited, dagColl,
      bfsAux, getD, mapGet?]
  rw [hres]
  refine ⟨by simp, by simp, by decide⟩

/-- Claim C2 (amended): `computeTransitiveTargets` is total and, provided no
unresolved seed name coincides with a visited target id, the result is
deduplicated by `id`: any two result elements with equal `id` are equal. -/
theorem result_dedup_by_id_without_collision (names : List String) (dag : HydratedDag)
    (h : ∀ nm ∈ (resolveSeeds names dag).2, nm ∉ computeVisitedIds names dag) :
    ∀ t₁ ∈ computeTransitiveTargets names dag, ∀ t₂ ∈ computeTransitiveTargets names dag,
      t₁.id = t₂.id → t₁ = t₂ := by
  intro t₁ h₁ t₂ h₂ hid
  unfold computeTransitiveTargets at h₁ h₂
  rcases List.mem_append.mp h₁ with he₁ | hp₁ <;> rcases List.mem_append.mp h₂ with he₂ | hp₂
  · rcases (mem_emitVisited ..).mp he₁ with ⟨-, hm₁, -⟩
    rcases (mem_emitVisited ..).mp he₂ with ⟨-, hm₂, -⟩
    obtain ⟨i₁, n₁⟩ := t₁
    obtain ⟨i₂, n₂⟩ := t₂
    simp only at hid hm₁ hm₂
    subst hid
    rw [hm₁] at hm₂
    obtain rfl := Option.some.inj hm₂
    rfl
  · rcases List.mem_map.mp hp₂ with ⟨nm, hnm, rfl⟩
    have hv₁ : t₁.id ∈ computeVisitedIds names dag := ((mem_emitVisited ..).mp he₁).1
    rw [hid] at hv₁
    exact absurd hv₁ (h nm hnm)
  · rcases List.mem_map.mp hp₁ with ⟨nm, hnm, rfl⟩
    have hv₂ : t₂.id ∈ computeVisitedIds names dag := ((mem_emitVisited ..).mp he₂).1
    rw [← hid] at hv₂
    exact absurd hv₂ (h nm hnm)
  · rcases List.mem_map.mp hp₁ with ⟨nm₁, hnm₁, rfl⟩
    rcases List.mem_map.mp hp₂ with ⟨nm₂, hnm₂, rfl⟩
    simp only at hid
    rw [hid]

/-- Witness for the amended claim C2 on a collision-free concrete input. -/
theorem result_dedup_by_id_without_collision_witness :
    (∀ nm ∈ (resolveSeeds ["b"] dagColl).2, nm ∉ computeVisitedIds ["b"] dagColl) ∧
      ∀ t₁ ∈ computeTransitiveTargets ["b"] dagColl,
        ∀ t₂ ∈ computeTransitiveTargets ["b"] dagColl, t₁.id = t₂.id → t₁ = t₂ := by
  have hh : ∀ nm ∈ (resolveSeeds ["b"] dagColl).2, nm ∉ computeVisitedIds ["b"] dagColl := by
    simp [resolveSeeds, dagColl, mapGet?]
  exact ⟨hh, result_dedup_by_id_without_collision ["b"] dagColl hh⟩

/-- The empty-name fixture: visited target `t` has the recorded name `""`. -/
def dagEmptyName : HydratedDag := ⟨[], [("t", "")], [("p", ["t"])]⟩

/-- Claim C3 counterexample: target `t` is visited and a name entry for it
exists in `targetIdToName` (the empty string), yet the result is empty —
`if (name)` tests truthiness, not existence, so an empty-string name is
silently dropped. -/
theorem visited_with_empty_name_dropped_cex :
    mapHas dagEmptyName.targetIdToName "t" = true ∧
      "t" ∈ computeVisitedIds ["p"] dagEmptyName ∧
      computeTransitiveTargets ["p"] dagEmptyName = [] := by
  have hv : computeVisitedIds ["p"] dagEmptyName = ["t"] := by
    simp [computeVisitedIds, resolveSeeds, dagEmptyName, bfsAux, getD, mapGet?]
  refine ⟨by decide, by rw [hv]; simp, ?_⟩
  unfold computeTransitiveTargets
  rw [hv]
  simp [emitVisited, resolveSeeds, dagEmptyName, mapGet?]

/-- Claim C3 (amended): a visited target id is emitted as
`{id, name: targetIdToName[id]}` iff a NON-EMPTY name entry exists for it;
a reachable id whose entry is missing or empty is silently excluded, and
every visited id with a non-empty recorded name appears in the result. -/
theorem visited_emitted_iff_nonempty_name (names : List String) (dag : HydratedDag)
    (tid nm : String) (hv : tid ∈ computeVisitedIds names dag) :
    ((mapGet? dag.targetIdToName tid = some nm ∧ nm ≠ "") ↔
      (⟨tid, nm⟩ : Target) ∈ emitVisited dag (computeVisitedIds names dag)) ∧
    ((mapGet? dag.targetIdToName tid = some nm ∧ nm ≠ "") →
      (⟨tid, nm⟩ : Target) ∈ computeTransitiveTargets names dag) := by
  constructor
  · constructor
    · rintro ⟨hm, hne⟩
      exact (mem_emitVisited ..).mpr ⟨hv, hm, hne⟩
    · intro hmem
      rcases (mem_emitVisited ..).mp hmem with ⟨-, hm, hne⟩
      exact ⟨hm, hne⟩
  · rintro ⟨hm, hne⟩
    unfold computeTransitiveTargets
    exact List.mem_append_left _ ((mem_emitVisited ..).mpr ⟨hv, hm, hne⟩)

/-- A two-node chain with ordinary names, for the claim C3 witness. -/
def dagChain : HydratedDag :=
  ⟨[("u", ["f"]), ("f", [])], [("u", "nu"), ("f", "nf")], [("nu", ["u"])]⟩

/-- Witness for the amended claim C3 at the visited id `f` of `dagChain`. -/
theorem visited_emitted_iff_nonempty_name_witness :
    "f" ∈ computeVisitedIds ["nu"] dagChain ∧
      (((mapGet? dagChain.targetIdToName "f" = some "nf" ∧ "nf" ≠ "") ↔
        (⟨"f", "nf"⟩ : Target) ∈ emitVisited dagChain (computeVisitedIds ["nu"] dagChain)) ∧
      ((mapGet? dagChain.targetIdToName "f" = some "nf" ∧ "nf" ≠ "") →
        (⟨"f", "nf"⟩ : Target) ∈ computeTransitiveTargets ["nu"] dagChain)) := by
  have hv : "f" ∈ computeVisitedIds ["nu"] dagChain := by
    have : computeVisitedIds ["nu"] dagChain = ["u", "f"] := by
      simp [computeVisitedIds, resolveSeeds, dagChain, bfsAux, getD, mapGet?]
    rw [this]
    simp
  exact ⟨hv, visited_emitted_iff_nonempty_name ["nu"] dagChain "f" "nf" hv⟩

/-- Claim C8: an unresolved seed name yields exactly the synthetic computed
target `{id: name, name}` with no traversal; seeding with only an unknown
name returns exactly that one element. -/
theorem unknown_seed_passthrough (names : List String) (dag : HydratedDag) (nm : String)
    (h : mapGet? dag.nameToTargetIds nm = none) :
    (nm ∈ names → (⟨nm, nm⟩ : Target) ∈ computeTransitiveTargets names dag) ∧
      computeTransitiveTargets [nm] dag = [⟨nm, nm⟩] := by
  constructor
  · intro hin
    unfold computeTransitiveTargets
    apply List.mem_append_right
    exact List.mem_map.mpr ⟨nm, (mem_resolveSeeds_snd ..).mpr ⟨hin, h⟩, rfl⟩
  · have hres : resolveSeeds [nm] dag = ([], [nm]) := by
      simp [resolveSeeds, h]
    unfold computeTransitiveTargets computeVisitedIds
    rw [hres]
    simp [bfsAux, emitVisited]

/-- Witness for claim C8 with the unknown package name `zzz`. -/
theorem unknown_seed_passthrough_witness :
    mapGet? dagColl.nameToTargetIds "zzz" = none ∧
      (("zzz" : String) ∈ ["zzz"] →
        (⟨"zzz", "zzz"⟩ : Target) ∈ computeTransitiveTargets ["zzz"] dagColl) ∧
      computeTransitiveTargets ["zzz"] dagColl = [⟨"zzz", "zzz"⟩] :=
  ⟨by decide, unknown_seed_passthrough ["zzz"] dagColl "zzz" (by decide)⟩

/-- The 2-node mutual dependency fixture of claim C9. -/
def dagCycle : HydratedDag :=
  ⟨[("a#b", ["b#b"]), ("b#b", ["a#b"])], [("a#b", "a"), ("b#b", "b")],
    [("a", ["a#b"]), ("b", ["b#b"])]⟩

/-- Claim C9: the traversal never processes an already-visited id again (the
visited list is duplicate-free for every input — this is what makes the
worklist recursion terminate, as established by its termination measure),
and on a 2-node mutual dependency seeding with either node's name
terminates and returns exactly the two nodes. -/
theorem traversal_cycle_safe :
    (∀ names dag, (computeVisitedIds names dag).Nodup) ∧
      computeTransitiveTargets ["a"] dagCycle = [⟨"a#b", "a"⟩, ⟨"b#b", "b"⟩] ∧
      computeTransitiveTargets ["b"] dagCycle = [⟨"b#b", "b"⟩, ⟨"a#b", "a"⟩] := by
  refine ⟨fun names dag => computeVisitedIds_nodup names dag, ?_, ?_⟩ <;>
    simp [computeTransitiveTargets, computeVisitedIds, resolveSeeds, emitVisited, dagCycle,
      bfsAux, getD, mapGet?]

/-! ### Claim C10: historical copy versus current copy -/

/-- Pointwise containment of one set-valued map in another: every key is
present and every stored element is stored. -/
def edgeSubmap (m mBig : List (String × List String)) : Prop :=
  (∀ k, mapHas m k = true → mapHas mBig k = true) ∧
    (∀ k y, y ∈ getD m k → y ∈ getD mBig k)

theorem edgeSubmap_refl (m : List (String × List String)) : edgeSubmap m m :=
  ⟨fun _ h => h, fun _ _ h => h⟩

theorem mem_getD_addDpts (m : List (String × List String)) (tid : String)
    (dpts : List String) (k y : String) :
    y ∈ getD (mapSet m tid (dpts.foldl setAdd (getD m tid))) k ↔
      y ∈ getD m k ∨ (k = tid ∧ y ∈ dpts) := by
  rw [getD_mapSet]
  by_cases h : tid = k
  · subst h
    simp [mem_foldl_setAdd]
  · have h2 : ¬ k = tid := fun hc => h hc.symm
    simp [h, h2]

theorem mapHas_addDpts (m : List (String × List String)) (tid : String)
    (dpts : List String) (k : String) :
    mapHas (mapSet m tid (dpts.foldl setAdd (getD m tid))) k = true ↔
      k = tid ∨ mapHas m k = true := by
  rw [mapHas_mapSet]
  constructor
  · rintro (h | h)
    · exact Or.inl h.symm
    · exact Or.inr h
  · rintro (h | h)
    · exact Or.inl h.symm
    · exact Or.inr h

theorem addDpts_sub (tid : String) (dpts : List String)
    {m mBig : List (String × List String)} (hR : edgeSubmap m mBig) :
    edgeSubmap (mapSet m tid (dpts.foldl setAdd (getD m tid)))
      (mapSet mBig tid (dpts.foldl setAdd (getD mBig tid))) := by
  constructor
  · intro k hk
    rw [mapHas_addDpts] at hk ⊢
    rcases hk with h | h
    · exact Or.inl h
    · exact Or.inr (hR.1 k h)
  · intro k y hy
    rw [mem_getD_addDpts] at hy ⊢
    rcases hy with h | h
    · exact Or.inl (hR.2 k y h)
    · exact Or.inr h

theorem depStepOld_sub (tid depId : String)
    {m mBig : List (String × List String)} (hR : edgeSubmap m mBig) :
    edgeSubmap
      (match mapGet? m depId with
        | some s => mapSet m depId (setAdd s tid)
        | none => m)
      (setMapAdd mBig depId tid) := by
  cases hm : mapGet? m depId with
  | none =>
    constructor
    · intro k hk
      rw [mapHas_setMapAdd]
      exact Or.inr (hR.1 k hk)
    · intro k y hy
      rw [mem_getD_setMapAdd]
      exact Or.inl (hR.2 k y hy)
  | some s =>
    constructor
    · intro k hk
      rw [mapHas_mapSet] at hk
      rw [mapHas_setMapAdd]
      rcases hk with h | h
      · exact Or.inl h
      · exact Or.inr (hR.1 k h)
    · intro k y hy
      rw [getD_mapSet] at hy
      rw [mem_getD_setMapAdd]
      by_cases h : depId = k
      · rw [if_pos h] at hy
        rcases (mem_setAdd ..).mp hy with h1 | h1
        · have : y ∈ getD m depId := by rw [getD_eq_of_mapGet? hm]; exact h1
          subst h
          exact Or.inl (hR.2 depId y this)
        · exact Or.inr ⟨h, h1⟩
      · rw [if_neg h] at hy
        exact Or.inl (hR.2 k y hy)

theorem depFoldOld_sub (tid : String) (deps : List String)
    {m mBig : List (String × List String)} (hR : edgeSubmap m mBig) :
    edgeSubmap
      (deps.foldl
        (fun acc depId =>
          match mapGet? acc depId with
          | some s => mapSet acc depId (setAdd s tid)
          | none => acc) m)
      (deps.foldl (fun acc depId => setMapAdd acc depId tid) mBig) := by
  induction deps generalizing m mBig with
  | nil => exact hR
  | cons a t ih =>
    simp only [List.foldl_cons]
    exact ih (depStepOld_sub tid a hR)

theorem stepAdditionalOld_sub (n : TargetNode)
    {m mBig : List (String × List String)} (hR : edgeSubmap m mBig) :
    edgeSubmap (stepEdgeAdditionalOld m (toOldTarget n)) (stepEdgeAdditional mBig n) := by
  unfold stepEdgeAdditionalOld stepEdgeAdditional toOldTarget
  exact depFoldOld_sub _ _ (addDpts_sub _ _ hR)

theorem graphFoldOld_sub (nodes : List TargetNode)
    {m mBig : List (String × List String)} (hR : edgeSubmap m mBig) :
    edgeSubmap ((nodes.map toOldTarget).foldl stepEdgeAdditionalOld m)
      (nodes.foldl stepEdgeAdditional mBig) := by
  rw [List.foldl_map]
  induction nodes generalizing m mBig with
  | nil => exact hR
  | cons a t ih =>
    simp only [List.foldl_cons]
    exact ih (stepAdditionalOld_sub a hR)

theorem addsFoldOld_sub (adds : List CachedBuildTargets)
    {m mBig : List (String × List String)} (hR : edgeSubmap m mBig) :
    edgeSubmap
      ((adds.map toOldSnapshot).foldl (fun acc ts => ts.graph.foldl stepEdgeAdditionalOld acc) m)
      (adds.foldl (fun acc ts => ts.graph.foldl stepEdgeAdditional acc) mBig) := by
  induction adds generalizing m mBig with
  | nil => exact hR
  | cons s t ih =>
    simp only [List.map_cons, List.foldl_cons]
    apply ih
    have hg : (toOldSnapshot s).graph = s.graph.map toOldTarget := rfl
    rw [hg]
    exact graphFoldOld_sub s.graph hR

/-- Success inversion for the historical copy. -/
theorem buildHydratedDagOld_ok {b : OldCachedBuildTargets} {adds : List OldCachedBuildTargets}
    {d : HydratedDag} (h : buildHydratedDagOld b adds = Except.ok d) :
    b.mode = Mode.fullDag ∧
      d.targetIdToDependentIds =
        adds.foldl (fun acc ts => ts.graph.foldl stepEdgeAdditionalOld acc)
          (b.graph.foldl stepEdgeBaselineOld []) := by
  unfold buildHydratedDagOld at h
  by_cases hm : b.mode = Mode.fullDag
  · simp only [hm, ne_eq, not_true_eq_false, if_false, Except.ok.injEq] at h
    subst h
    exact ⟨hm, rfl⟩
  · simp [hm] at h

/-- The baseline edge loops of the two copies agree exactly. -/
theorem baselineFoldOld_eq (nodes : List TargetNode) (m : List (String × List String)) :
    (nodes.map toOldTarget).foldl stepEdgeBaselineOld m = nodes.foldl stepEdgeBaseline m := by
  rw [List.foldl_map]
  rfl

/-- Historical hydration result of the `bEmpty`/`snapXY` scenario. -/
def dagOldXY : HydratedDag :=
  (buildHydratedDagOld (toOldSnapshot bEmpty) [toOldSnapshot snapXY]).toOption.getD ⟨[], [], []⟩

/-- Claim C10 counterexample: on a full-dag baseline with an empty graph plus
one filtered snapshot declaring `x` with dependency `y`, the current copy
creates the entry `y -> ∖x∖` while the historical copy produces no entry for
`y` at all (it only adds dependency reverse edges into already-existing
entries), so the two copies are not equivalent. -/
theorem historical_copy_not_equivalent_cex :
    buildHydratedDag bEmpty [snapXY] = Except.ok dagXY ∧
      buildHydratedDagOld (toOldSnapshot bEmpty) [toOldSnapshot snapXY] =
        Except.ok dagOldXY ∧
      mapGet? dagXY.targetIdToDependentIds "y" = some ["x"] ∧
      mapGet? dagOldXY.targetIdToDependentIds "y" = none ∧
      dagXY ≠ dagOldXY :=
  ⟨rfl, rfl, by decide, by decide, by decide⟩

/-- Claim C10 (amended): the two copies are not equivalent; what does hold is
that the historical copy's `targetIdToDependentIds` is pointwise contained
in the current copy's on every input (same baseline and snapshots, read
through the field projection `toOldSnapshot`): every key of the historical
edge map is a key of the current one, and every recorded dependent is also
recorded by the current copy. -/
theorem historical_copy_edges_submap (b : CachedBuildTargets)
    (adds : List CachedBuildTargets) (d dOld : HydratedDag)
    (h : buildHydratedDag b adds = Except.ok d)
    (hOld : buildHydratedDagOld (toOldSnapshot b) (adds.map toOldSnapshot) = Except.ok dOld) :
    (∀ k, mapHas dOld.targetIdToDependentIds k = true →
      mapHas d.targetIdToDependentIds k = true) ∧
    (∀ k y, y ∈ getD dOld.targetIdToDependentIds k → y ∈ getD d.targetIdToDependentIds k) := by
  have hnew := (buildHydratedDag_ok h).2.1
  have hold := (buildHydratedDagOld_ok hOld).2
  have hgb : (toOldSnapshot b).graph = b.graph.map toOldTarget := rfl
  rw [hgb, baselineFoldOld_eq] at hold
  have hsub : edgeSubmap dOld.targetIdToDependentIds d.targetIdToDependentIds := by
    rw [hnew, hold]
    exact addsFoldOld_sub adds (edgeSubmap_refl _)
  exact ⟨hsub.1, hsub.2⟩

/-- Witness for the amended claim C10 on the concrete scenario. -/
theorem historical_copy_edges_submap_witness :
    (∀ k, mapHas dagOldXY.targetIdToDependentIds k = true →
      mapHas dagXY.targetIdToDependentIds k = true) ∧
    (∀ k y, y ∈ getD dagOldXY.targetIdToDependentIds k →
      y ∈ getD dagXY.targetIdToDependentIds k) :=
  historical_copy_edges_submap bEmpty [snapXY] dagXY dagOldXY rfl rfl

end GraphiteTD
